import Mathlib

/-!
Shallow embedding of `sage/categories/finite_complex_reflection_groups.py`.

A finite complex reflection group enters this category through a small set of
primitive methods (`degrees`, `codegrees`, `number_of_simple_reflections`,
`number_of_irreducible_components`); every derived method of the category is a
pure function of these.  We embed the primitive data as a structure and each
category method as a Lean function on it, one namespace per category level
(base, `Irreducible`, `WellGenerated`, `WellGenerated.Irreducible`), mirroring
the method-resolution of the source.

The Python `//` on integers is floor division (`Int.fdiv`) and `%` is the
floor-convention remainder (`Int.fmod`); both are used below wherever the
source uses them.
-/

/-- The primitive data a group supplies to the category: its degrees
(ascending), codegrees (descending), and the two external group-operation
primitives consumed by the derived methods. -/
structure FCRG where
  degrees : List ℤ
  codegrees : List ℤ
  number_of_simple_reflections : ℤ
  number_of_irreducible_components : ℤ

namespace FCRG

/-- Method `rank` (source line 270): the number of degrees, `len(self.degrees())`. -/
def rank (W : FCRG) : ℤ :=
  (W.degrees.length : ℤ)

/-- Method `number_of_reflecting_hyperplanes` (source line 208): sum of the
codegrees plus the rank. -/
def number_of_reflecting_hyperplanes (W : FCRG) : ℤ :=
  W.codegrees.sum + W.rank

/-- Method `number_of_reflections` (source line 241): sum of the degrees minus
the rank. -/
def number_of_reflections (W : FCRG) : ℤ :=
  W.degrees.sum - W.rank

/-- Method `cardinality` (source line 295): the product of the degrees. -/
def cardinality (W : FCRG) : ℤ :=
  W.degrees.prod

/-- Method `is_well_generated` of the general category (source line 335):
whether the number of simple reflections equals the rank. -/
def is_well_generated (W : FCRG) : Bool :=
  decide (W.number_of_simple_reflections = W.rank)

/-- Method `is_real` (source line 367): whether the multiplicity of `2` among
the degrees equals the number of irreducible components. -/
def is_real (W : FCRG) : Bool :=
  decide ((W.degrees.count 2 : ℤ) = W.number_of_irreducible_components)

end FCRG

/-- The Python builtin `max` on a nonempty list of integers: fold `max` over the
elements, starting from the first (on `[]`, where Python raises, we return a
junk value `0`; all uses below are on nonempty degree lists). -/
def listMax : List ℤ → ℤ
  | [] => 0
  | a :: l => l.foldl max a

namespace Irreducible

/-- Method `coxeter_number` of the `Irreducible` category (source line 482):
`(number_of_reflecting_hyperplanes() + number_of_reflections()) // rank()`. -/
def coxeter_number (W : FCRG) : ℤ :=
  Int.fdiv (W.number_of_reflecting_hyperplanes + W.number_of_reflections) W.rank

end Irreducible

namespace WellGenerated

/-- Method `is_well_generated` of the `WellGenerated` category (source line 522):
returns `True` unconditionally. -/
def is_well_generated (_W : FCRG) : Bool :=
  true

namespace Irreducible

/-- Method `coxeter_number` of `WellGenerated.Irreducible` (source line 601):
`max(self.degrees())`. -/
def coxeter_number (W : FCRG) : ℤ :=
  listMax W.degrees

/-- Method `number_of_reflections_of_full_support` (source lines 618-622):
`n * h * prod(codegrees[:-1]) // l` with `n = rank`, `h = coxeter_number`,
`l = cardinality`, and `codegrees[:-1]` dropping the last stored codegree. -/
def number_of_reflections_of_full_support (W : FCRG) : ℤ :=
  Int.fdiv (W.rank * coxeter_number W * (W.codegrees.dropLast).prod) W.cardinality

end Irreducible

end WellGenerated

/-! ## Polynomial arithmetic for the `polynomial=True` branch

The `q`-analogue branch of `rational_catalan_number` delegates to the sage
polynomial ring over `ZZ` and to `sage.combinat.q_analogues.q_int`, both
external library services (out of scope per the contract stated by the module itself).  We
represent a polynomial in `q` as its little-endian coefficient list. -/

/-- Modelled from the spec: the "q-integer" polynomial `1+q+...+q^(n-1)`
(the external sage `q_int`), as a coefficient list of `n` ones. -/
def q_int (n : ℤ) : List ℤ :=
  List.replicate n.toNat 1

/-- Coefficientwise sum of two coefficient lists (external exact polynomial
addition). -/
def addP : List ℤ → List ℤ → List ℤ
  | [], b => b
  | a, [] => a
  | x :: a, y :: b => (x + y) :: addP a b

/-- Product of two coefficient lists by convolution (external exact polynomial
multiplication). -/
def mulP : List ℤ → List ℤ → List ℤ
  | [], _ => []
  | x :: a, b => addP (b.map (fun y => x * y)) (0 :: mulP a b)

/-- Coefficientwise difference of two coefficient lists. -/
def subP (a b : List ℤ) : List ℤ :=
  addP a (b.map (fun x => -x))

/-- Product of a list of polynomials (the sage `prod` over polynomials). -/
def polyProd (l : List (List ℤ)) : List ℤ :=
  l.foldr mulP [1]

/-- One step per quotient coefficient: read off the lowest coefficient of the
running numerator, subtract that multiple of the divisor, and continue on the
tail. -/
def divExactAux : ℕ → List ℤ → List ℤ → List ℤ
  | 0, _, _ => []
  | Nat.succ k, num, den =>
      num.headD 0 ::
        divExactAux k (List.tail (subP num (den.map (fun x => num.headD 0 * x)))) den

/-- Modelled from the spec: exact polynomial division (the `//` that the external
sage polynomial ring performs on the `q`-analogue branch; the spec
guarantees the division is exact).  Computed from the low-degree end, using
that the divisors arising here have constant coefficient `1`. -/
def polyDiv (num den : List ℤ) : List ℤ :=
  divExactAux (num.length + 1 - den.length) num den

/-- The value returned by the Catalan-type methods: an exact integer when
`polynomial=False`, a polynomial in `q` when `polynomial=True`. -/
inductive RCResult
  | int : ℤ → RCResult
  | poly : List ℤ → RCResult
deriving DecidableEq, Repr

instance : DecidableEq (Except String RCResult) := fun a b =>
  match a, b with
  | Except.ok x, Except.ok y =>
      if h : x = y then isTrue (by rw [h]) else isFalse (by simp [h])
  | Except.error x, Except.error y =>
      if h : x = y then isTrue (by rw [h]) else isFalse (by simp [h])
  | Except.ok _, Except.error _ => isFalse (by simp)
  | Except.error _, Except.ok _ => isFalse (by simp)

namespace WellGenerated.Irreducible

/-- Method `rational_catalan_number(p, polynomial)` (source lines 667-682): raise
"Invalid argument" unless `gcd(h, p) == 1`, else return
`prod(f(p + (p*(deg-1)) % h) for deg in degrees) // prod(f(deg) for deg in degrees)`
with `f = q_int` when `polynomial` and the identity otherwise. -/
def rational_catalan_number (W : FCRG) (p : ℤ) (polynomial : Bool) :
    Except String RCResult :=
  if ¬ Int.gcd (coxeter_number W) p = 1 then
    Except.error ("parameter p = " ++ toString p ++
      " is not coprime to the Coxeter number " ++ toString (coxeter_number W))
  else if polynomial then
    Except.ok (RCResult.poly (polyDiv
      (polyProd (W.degrees.map (fun deg =>
        q_int (p + (p * (deg - 1)).fmod (coxeter_number W)))))
      (polyProd (W.degrees.map (fun deg => q_int deg)))))
  else
    Except.ok (RCResult.int (Int.fdiv
      ((W.degrees.map (fun deg =>
        p + (p * (deg - 1)).fmod (coxeter_number W))).prod)
      ((W.degrees.map (fun deg => deg)).prod)))

/-- Method `fuss_catalan_number(m, positive, polynomial)` (source lines 759-765):
set `p = m*h - 1` if `positive` else `m*h + 1`, and delegate to
`rational_catalan_number(p, polynomial)`. -/
def fuss_catalan_number (W : FCRG) (m : ℤ) (positive polynomial : Bool) :
    Except String RCResult :=
  rational_catalan_number W
    (if positive then m * coxeter_number W - 1 else m * coxeter_number W + 1)
    polynomial

/-- Method `catalan_number(positive, polynomial)` (source lines 817-818):
delegate to
`fuss_catalan_number(1, positive, polynomial)`. -/
def catalan_number (W : FCRG) (positive polynomial : Bool) :
    Except String RCResult :=
  fuss_catalan_number W 1 positive polynomial

end WellGenerated.Irreducible

/-! ## Supporting lemmas on the coefficient-list arithmetic -/

theorem addP_nil_right (a : List ℤ) : addP a [] = a := by
  cases a <;> rfl

theorem length_addP : ∀ (a b : List ℤ), (addP a b).length = max a.length b.length
  | [], b => by simp [addP]
  | x :: a, [] => by simp [addP]
  | x :: a, y :: b => by
      simp [addP, length_addP a b]
      omega

theorem subP_addP : ∀ (a b : List ℤ), a.length ≤ b.length → subP (addP a b) a = b
  | [], b, _ => by simp [subP, addP, addP_nil_right]
  | x :: a, [], h => by simp at h
  | x :: a, y :: b, h => by
      have ih := subP_addP a b (by simpa using h)
      simp only [subP, addP, List.map_cons] at ih ⊢
      refine congrArg₂ List.cons (by ring) ih

theorem length_mulP : ∀ (a b : List ℤ), a ≠ [] → b ≠ [] →
    (mulP a b).length = a.length + b.length - 1
  | [], _, ha, _ => absurd rfl ha
  | [x], b, _, hb => by
      have hb1 : 1 ≤ b.length := List.length_pos.mpr hb
      simp [mulP, length_addP]
      omega
  | x :: y :: a, b, _, hb => by
      have ih := length_mulP (y :: a) b (by simp) hb
      have hb1 : 1 ≤ b.length := List.length_pos.mpr hb
      simp [mulP, length_addP] at ih ⊢
      omega

theorem divExactAux_succ (k : ℕ) (num den : List ℤ) :
    divExactAux (k + 1) num den
      = num.headD 0 ::
          divExactAux k (List.tail (subP num (den.map (fun x => num.headD 0 * x)))) den :=
  rfl

theorem divExactAux_mulP (dt : List ℤ) : ∀ (Q : List ℤ),
    divExactAux Q.length (mulP Q (1 :: dt)) (1 :: dt) = Q
  | [] => rfl
  | q :: Q' => by
      have hnum : mulP (q :: Q') (1 :: dt)
          = addP ((1 :: dt).map (fun y => q * y)) (0 :: mulP Q' (1 :: dt)) := rfl
      have hhead : (mulP (q :: Q') (1 :: dt)).headD 0 = q := by
        rw [hnum, List.map_cons]
        simp [addP]
      rw [List.length_cons, divExactAux_succ, hhead]
      cases Q' with
      | nil => rfl
      | cons c Q'' =>
          have hm := length_mulP (c :: Q'') (1 :: dt) (by simp) (by simp)
          have hlen : ((1 :: dt).map (fun y => q * y)).length
              ≤ (0 :: mulP (c :: Q'') (1 :: dt)).length := by
            simp only [List.length_map, List.length_cons] at hm ⊢
            omega
          rw [hnum, subP_addP _ _ hlen, List.tail_cons]
          exact congrArg (q :: ·) (divExactAux_mulP dt (c :: Q''))

theorem polyDiv_mulP (dt : List ℤ) (Q : List ℤ) :
    polyDiv (mulP Q (1 :: dt)) (1 :: dt) = Q := by
  have hfuel : (mulP Q (1 :: dt)).length + 1 - (1 :: dt).length = Q.length := by
    cases Q with
    | nil => simp [mulP]
    | cons x xs =>
        have hm := length_mulP (x :: xs) (1 :: dt) (by simp) (by simp)
        simp only [List.length_cons] at hm ⊢
        omega
  unfold polyDiv
  rw [hfuel]
  exact divExactAux_mulP dt Q

theorem mulP_one_cons (tl rt : List ℤ) :
    ∃ u, mulP (1 :: tl) (1 :: rt) = 1 :: u := by
  refine ⟨addP (rt.map (fun y => 1 * y)) (mulP tl (1 :: rt)), ?_⟩
  show addP ((1 :: rt).map (fun y => 1 * y)) (0 :: mulP tl (1 :: rt)) = _
  rw [List.map_cons]
  show ((1 : ℤ) * 1 + 0) :: addP (rt.map (fun y => 1 * y)) (mulP tl (1 :: rt)) = _
  norm_num

theorem polyProd_qint_head : ∀ (ds : List ℤ), (∀ d ∈ ds, 1 ≤ d) →
    ∃ dt, polyProd (ds.map q_int) = 1 :: dt
  | [], _ => ⟨[], rfl⟩
  | d :: ds, h => by
      obtain ⟨rt, hrt⟩ :=
        polyProd_qint_head ds (fun x hx => h x (List.mem_cons_of_mem _ hx))
      have hd : 1 ≤ d := h d (List.mem_cons_self d ds)
      obtain ⟨k, hk⟩ : ∃ k, d.toNat = k + 1 := ⟨d.toNat - 1, by omega⟩
      have hq : q_int d = 1 :: List.replicate k 1 := by
        rw [q_int, hk, List.replicate_succ]
      show ∃ dt, mulP (q_int d) (polyProd (ds.map q_int)) = 1 :: dt
      rw [hq, hrt]
      exact mulP_one_cons _ _

theorem int_list_prod_pos : ∀ (l : List ℤ), (∀ x ∈ l, 1 ≤ x) → 0 < l.prod
  | [], _ => by simp
  | x :: l, h => by
      have hx : (0 : ℤ) < x := lt_of_lt_of_le one_pos (h x (List.mem_cons_self x l))
      have hl := int_list_prod_pos l (fun y hy => h y (List.mem_cons_of_mem _ hy))
      rw [List.prod_cons]
      exact mul_pos hx hl

/-! ## Claims -/

/-- C1: on a well-generated irreducible group (ascending positive degrees,
Coxeter number `h = max(degrees)`), for `p` coprime to `h`,
`rational_catalan_number(p, polynomial=False)` returns the exact integer
quotient `prod(p + (p*(d-1)) mod h) / prod(d)`, and with `polynomial=True` the
exact polynomial quotient with each factor `n` replaced by the q-integer
`1+q+...+q^(n-1)`; the divisibility (guaranteed for actual reflection groups
by the underlying combinatorial identity) enters as the hypotheses `hint` and
`hpoly` exhibiting the exact quotients `q` and `Q`. -/
theorem rational_catalan_number_exact_quotient
    (W : FCRG) (p q : ℤ) (Q : List ℤ)
    (hdeg : ∀ d ∈ W.degrees, 1 ≤ d)
    (hgcd : Int.gcd (WellGenerated.Irreducible.coxeter_number W) p = 1)
    (hint : (W.degrees.map (fun deg =>
        p + (p * (deg - 1)).fmod (WellGenerated.Irreducible.coxeter_number W))).prod
      = q * W.degrees.prod)
    (hpoly : polyProd (W.degrees.map (fun deg =>
        q_int (p + (p * (deg - 1)).fmod (WellGenerated.Irreducible.coxeter_number W))))
      = mulP Q (polyProd (W.degrees.map (fun deg => q_int deg)))) :
    WellGenerated.Irreducible.rational_catalan_number W p false
        = Except.ok (RCResult.int q)
      ∧ WellGenerated.Irreducible.rational_catalan_number W p true
        = Except.ok (RCResult.poly Q) := by
  have hden : (0 : ℤ) < W.degrees.prod := int_list_prod_pos _ hdeg
  obtain ⟨dt, hdt⟩ := polyProd_qint_head W.degrees hdeg
  have heta : W.degrees.map (fun deg => q_int deg) = W.degrees.map q_int := rfl
  constructor
  · unfold WellGenerated.Irreducible.rational_catalan_number
    rw [if_neg (not_not_intro hgcd)]
    rw [if_neg (by simp)]
    rw [hint]
    have hid : W.degrees.map (fun deg => deg) = W.degrees := List.map_id W.degrees
    rw [hid]
    rw [Int.mul_fdiv_cancel q (ne_of_gt hden)]
  · unfold WellGenerated.Irreducible.rational_catalan_number
    rw [if_neg (not_not_intro hgcd)]
    rw [if_pos rfl]
    rw [hpoly, heta, hdt]
    rw [polyDiv_mulP dt Q]

/-- Witness for C1 at the rank-one group with degrees `[2]`, `p = 3`:
the exact quotients are `2` and `1 + q^2`. -/
theorem rational_catalan_number_exact_quotient_witness :
    (∀ d ∈ ([2] : List ℤ), 1 ≤ d)
    ∧ Int.gcd (WellGenerated.Irreducible.coxeter_number ⟨[2], [0], 1, 1⟩) 3 = 1
    ∧ (WellGenerated.Irreducible.rational_catalan_number ⟨[2], [0], 1, 1⟩ 3 false
          = Except.ok (RCResult.int 2)
        ∧ WellGenerated.Irreducible.rational_catalan_number ⟨[2], [0], 1, 1⟩ 3 true
          = Except.ok (RCResult.poly [1, 0, 1])) :=
  ⟨by decide, by decide,
    rational_catalan_number_exact_quotient ⟨[2], [0], 1, 1⟩ 3 2 [1, 0, 1]
      (by decide) (by decide) (by decide) (by decide)⟩

/-- C2: `rational_catalan_number(p, ...)` raises the "Invalid argument" error,
whose message names both `p` and the Coxeter number, exactly when
`gcd(h, p) != 1`; otherwise it always produces a result. -/
theorem rational_catalan_number_error_iff (W : FCRG) (p : ℤ) (polynomial : Bool) :
    (¬ Int.gcd (WellGenerated.Irreducible.coxeter_number W) p = 1 →
      WellGenerated.Irreducible.rational_catalan_number W p polynomial
        = Except.error ("parameter p = " ++ toString p ++
            " is not coprime to the Coxeter number "
            ++ toString (WellGenerated.Irreducible.coxeter_number W)))
    ∧ (Int.gcd (WellGenerated.Irreducible.coxeter_number W) p = 1 →
      ∃ v, WellGenerated.Irreducible.rational_catalan_number W p polynomial
        = Except.ok v) := by
  constructor
  · intro h
    unfold WellGenerated.Irreducible.rational_catalan_number
    rw [if_pos h]
  · intro h
    unfold WellGenerated.Irreducible.rational_catalan_number
    rw [if_neg (not_not_intro h)]
    cases polynomial
    · exact ⟨_, rfl⟩
    · exact ⟨_, rfl⟩

/-- Witness for C2 on the group with degrees `[2,3]` (Coxeter number `3`):
`p = 6` triggers the error with the message naming `6` and `3`, and `p = 5`
produces a result. -/
theorem rational_catalan_number_error_iff_witness :
    WellGenerated.Irreducible.rational_catalan_number ⟨[2, 3], [1, 0], 2, 1⟩ 6 false
      = Except.error ("parameter p = " ++ toString (6 : ℤ) ++
          " is not coprime to the Coxeter number "
          ++ toString (WellGenerated.Irreducible.coxeter_number ⟨[2, 3], [1, 0], 2, 1⟩))
    ∧ ∃ v, WellGenerated.Irreducible.rational_catalan_number
        ⟨[2, 3], [1, 0], 2, 1⟩ 5 false = Except.ok v :=
  ⟨(rational_catalan_number_error_iff ⟨[2, 3], [1, 0], 2, 1⟩ 6 false).1 (by decide),
   (rational_catalan_number_error_iff ⟨[2, 3], [1, 0], 2, 1⟩ 5 false).2 (by decide)⟩

/-- C3: on a well-generated irreducible group (nonempty degrees, with the
classification fact that the codegrees are dual to the degrees, expressed as
`sum(codegrees) = rank * max(degrees) - sum(degrees)`), the general
irreducible formula `(hyperplanes + reflections) // rank` agrees with the
specialized `max(degrees)`. -/
theorem coxeter_number_agreement (W : FCRG)
    (hne : W.degrees ≠ [])
    (hdual : W.codegrees.sum
      = (W.degrees.length : ℤ) * listMax W.degrees - W.degrees.sum) :
    Irreducible.coxeter_number W = WellGenerated.Irreducible.coxeter_number W := by
  have hn : ((W.degrees.length : ℤ)) ≠ 0 := by
    have := List.length_pos.mpr hne
    omega
  unfold Irreducible.coxeter_number WellGenerated.Irreducible.coxeter_number
  unfold FCRG.number_of_reflecting_hyperplanes FCRG.number_of_reflections FCRG.rank
  rw [hdual]
  have hsum : (W.degrees.length : ℤ) * listMax W.degrees - W.degrees.sum
        + (W.degrees.length : ℤ) + (W.degrees.sum - (W.degrees.length : ℤ))
      = (W.degrees.length : ℤ) * listMax W.degrees := by ring
  rw [hsum]
  exact Int.mul_fdiv_cancel_left (listMax W.degrees) hn

/-- Witness for C3 at the group with degrees `[3,6,9]`, codegrees `[6,3,0]`:
both implementations give `9`. -/
theorem coxeter_number_agreement_witness :
    (⟨[3, 6, 9], [6, 3, 0], 3, 1⟩ : FCRG).degrees ≠ []
    ∧ (⟨[3, 6, 9], [6, 3, 0], 3, 1⟩ : FCRG).codegrees.sum
        = ((⟨[3, 6, 9], [6, 3, 0], 3, 1⟩ : FCRG).degrees.length : ℤ)
            * listMax (⟨[3, 6, 9], [6, 3, 0], 3, 1⟩ : FCRG).degrees
          - (⟨[3, 6, 9], [6, 3, 0], 3, 1⟩ : FCRG).degrees.sum
    ∧ Irreducible.coxeter_number ⟨[3, 6, 9], [6, 3, 0], 3, 1⟩
        = WellGenerated.Irreducible.coxeter_number ⟨[3, 6, 9], [6, 3, 0], 3, 1⟩ :=
  ⟨by decide, by decide,
    coxeter_number_agreement ⟨[3, 6, 9], [6, 3, 0], 3, 1⟩ (by decide) (by decide)⟩

/-- C4: `fuss_catalan_number(m, positive, polynomial)` equals
`rational_catalan_number(m*h - 1, polynomial)` when `positive` and
`rational_catalan_number(m*h + 1, polynomial)` otherwise;
`catalan_number(positive, polynomial)` equals
`fuss_catalan_number(1, positive, polynomial)`; and with default flags
`catalan_number() = fuss_catalan_number(1) = rational_catalan_number(h + 1)`. -/
theorem catalan_fuss_rational_relations (W : FCRG) (m : ℤ)
    (positive polynomial : Bool) :
    WellGenerated.Irreducible.fuss_catalan_number W m positive polynomial
      = WellGenerated.Irreducible.rational_catalan_number W
          (if positive then m * WellGenerated.Irreducible.coxeter_number W - 1
           else m * WellGenerated.Irreducible.coxeter_number W + 1) polynomial
    ∧ WellGenerated.Irreducible.catalan_number W positive polynomial
      = WellGenerated.Irreducible.fuss_catalan_number W 1 positive polynomial
    ∧ WellGenerated.Irreducible.catalan_number W false false
      = WellGenerated.Irreducible.rational_catalan_number W
          (WellGenerated.Irreducible.coxeter_number W + 1) false := by
  refine ⟨rfl, rfl, ?_⟩
  unfold WellGenerated.Irreducible.catalan_number
    WellGenerated.Irreducible.fuss_catalan_number
  rw [if_neg (by simp), one_mul]

/-- C5 counterexample: on a group whose degrees are `[3,6,9]` (Coxeter number
`9`, and `gcd(5, 9) = 1` so no error is raised), `rational_catalan_number(5)`
returns `4`, not `7` as claimed. -/
theorem rational_catalan_number_deg369_counterexample :
    WellGenerated.Irreducible.coxeter_number ⟨[3, 6, 9], [6, 3, 0], 3, 1⟩ = 9
    ∧ Int.gcd 9 5 = 1
    ∧ WellGenerated.Irreducible.rational_catalan_number
        ⟨[3, 6, 9], [6, 3, 0], 3, 1⟩ 5 false = Except.ok (RCResult.int 4)
    ∧ ¬ WellGenerated.Irreducible.rational_catalan_number
        ⟨[3, 6, 9], [6, 3, 0], 3, 1⟩ 5 false = Except.ok (RCResult.int 7) := by
  decide

/-- C5 amended: the values `7, 12, 15` at `p = 5, 7, 8` belong to the group
with degrees `[2,3]` (Coxeter number `3`, each `p` coprime to `3`), the group
of the source doctest; for degrees `[3,6,9]` (Coxeter number `9`) the values
at `p = 5, 7, 8` are `4, 10, 10`, with no error raised either. -/
theorem rational_catalan_number_concrete_values :
    WellGenerated.Irreducible.coxeter_number ⟨[2, 3], [1, 0], 2, 1⟩ = 3
    ∧ WellGenerated.Irreducible.rational_catalan_number ⟨[2, 3], [1, 0], 2, 1⟩ 5 false
        = Except.ok (RCResult.int 7)
    ∧ WellGenerated.Irreducible.rational_catalan_number ⟨[2, 3], [1, 0], 2, 1⟩ 7 false
        = Except.ok (RCResult.int 12)
    ∧ WellGenerated.Irreducible.rational_catalan_number ⟨[2, 3], [1, 0], 2, 1⟩ 8 false
        = Except.ok (RCResult.int 15)
    ∧ WellGenerated.Irreducible.rational_catalan_number ⟨[3, 6, 9], [6, 3, 0], 3, 1⟩ 5 false
        = Except.ok (RCResult.int 4)
    ∧ WellGenerated.Irreducible.rational_catalan_number ⟨[3, 6, 9], [6, 3, 0], 3, 1⟩ 7 false
        = Except.ok (RCResult.int 10)
    ∧ WellGenerated.Irreducible.rational_catalan_number ⟨[3, 6, 9], [6, 3, 0], 3, 1⟩ 8 false
        = Except.ok (RCResult.int 10) := by
  decide

/-- C6: `number_of_reflections_of_full_support()` equals
`rank * coxeter_number * prod(codegrees minus its last element) // cardinality`
(the dropped element is the last of the stored descending sequence, here
written independently as `take (length - 1)`); for rank one the product is the
empty product `1`, as at the rank-one instance with degrees `[5]`; the two
source doctests evaluate to `1` and `3`. -/
theorem number_of_reflections_of_full_support_formula :
    (∀ W : FCRG,
      WellGenerated.Irreducible.number_of_reflections_of_full_support W
        = Int.fdiv (W.rank * WellGenerated.Irreducible.coxeter_number W
            * (W.codegrees.take (W.codegrees.length - 1)).prod) W.cardinality)
    ∧ (⟨[5], [0], 1, 1⟩ : FCRG).codegrees.dropLast.prod = 1
    ∧ WellGenerated.Irreducible.number_of_reflections_of_full_support
        ⟨[5], [0], 1, 1⟩ = 1
    ∧ WellGenerated.Irreducible.number_of_reflections_of_full_support
        ⟨[2, 3, 4], [2, 1, 0], 3, 1⟩ = 1
    ∧ WellGenerated.Irreducible.number_of_reflections_of_full_support
        ⟨[3, 6, 9], [6, 3, 0], 3, 1⟩ = 3 := by
  refine ⟨?_, by decide, by decide, by decide, by decide⟩
  intro W
  unfold WellGenerated.Irreducible.number_of_reflections_of_full_support
  rw [List.dropLast_eq_take]

/-- C7: `number_of_reflections()` equals `sum(degrees) - rank`,
`number_of_reflecting_hyperplanes()` equals `sum(codegrees) + rank`, and
`rank()` equals `len(degrees)`. -/
theorem derived_invariant_formulas (W : FCRG) :
    W.number_of_reflections = W.degrees.sum - (W.degrees.length : ℤ)
    ∧ W.number_of_reflecting_hyperplanes
        = W.codegrees.sum + (W.degrees.length : ℤ)
    ∧ W.rank = (W.degrees.length : ℤ) :=
  ⟨rfl, rfl, rfl⟩

/-- C8: `is_real()` returns `True` exactly when the multiplicity of `2` among
the degrees equals the number of irreducible components. -/
theorem is_real_iff_count_two (W : FCRG) :
    W.is_real = true
      ↔ (W.degrees.count 2 : ℤ) = W.number_of_irreducible_components := by
  simp [FCRG.is_real]

/-- C9: `fuss_catalan_number(m, positive, polynomial)` never hits the
coprimality error: its parameter `m*h - 1` (when positive) or `m*h + 1` is
always coprime to `h`, so a result is always produced (this holds for every
integer `m` and every degree list, so in particular under the claimed
hypotheses `h >= 1` and `m >= 1`). -/
theorem fuss_catalan_number_no_error (W : FCRG) (m : ℤ)
    (positive polynomial : Bool) :
    ∃ v, WellGenerated.Irreducible.fuss_catalan_number W m positive polynomial
      = Except.ok v := by
  unfold WellGenerated.Irreducible.fuss_catalan_number
  cases positive
  · rw [if_neg (by simp)]
    have hgcd : Int.gcd (WellGenerated.Irreducible.coxeter_number W)
        (m * WellGenerated.Irreducible.coxeter_number W + 1) = 1 :=
      Int.isCoprime_iff_gcd_eq_one.mp ⟨-m, 1, by ring⟩
    unfold WellGenerated.Irreducible.rational_catalan_number
    rw [if_neg (not_not_intro hgcd)]
    cases polynomial
    · exact ⟨_, rfl⟩
    · exact ⟨_, rfl⟩
  · rw [if_pos rfl]
    have hgcd : Int.gcd (WellGenerated.Irreducible.coxeter_number W)
        (m * WellGenerated.Irreducible.coxeter_number W - 1) = 1 :=
      Int.isCoprime_iff_gcd_eq_one.mp ⟨m, -1, by ring⟩
    unfold WellGenerated.Irreducible.rational_catalan_number
    rw [if_neg (not_not_intro hgcd)]
    cases polynomial
    · exact ⟨_, rfl⟩
    · exact ⟨_, rfl⟩

/-- C10: on the `WellGenerated` specialization `is_well_generated()` returns
`True` unconditionally, overriding the general comparison of
`number_of_simple_reflections()` with `rank()`: it returns `True` even on data
where the general-category comparison is false. -/
theorem wg_is_well_generated_unconditional :
    (∀ W : FCRG, WellGenerated.is_well_generated W = true)
    ∧ (∃ W : FCRG, W.is_well_generated = false
        ∧ WellGenerated.is_well_generated W = true) :=
  ⟨fun _ => rfl, ⟨⟨[2, 3], [1, 0], 5, 1⟩, by decide, rfl⟩⟩
